import Mathlib

/-!
Verification of the portfolio risk analytics engine (`streamlit_app.py`,
class `PortfolioAnalytics`).

Shallow embedding choices:
* A price table / return table is a `List (List ℚ)`: a list of rows, one
  row per trading date, one entry per asset.  Exact rational arithmetic
  stands in for IEEE doubles, so every "within tolerance" statement is
  proved exactly.
* `pandas` NaN (sample statistics of a series shorter than 2) is modelled
  with `Option`: `none` is NaN.
* `np.sqrt` is kept abstract as a parameter `sq : ℚ → ℚ`; the theorems
  that need it assume only the sign facts of the real square root
  (`sq 0 = 0`, positivity on positives), which is all the code's guards
  depend on.
-/

namespace PortfolioAnalytics

/-- Spec-side dot product: `Σ_a weight[a] * row[a]` over the `K` indices of
the weight vector. -/
def dotProduct (weights row : List ℚ) : ℚ :=
  ((List.range weights.length).map (fun a => weights.getD a 0 * row.getD a 0)).sum

/-- `calculate_returns`: `self.data.pct_change().dropna()`.  `pct_change`
turns row `t` into `(price[t] - price[t-1]) / price[t-1]` with an
all-NaN first row, and `dropna` removes that first row, so the result
pairs each row of the table with its successor. -/
def calculate_returns (data : List (List ℚ)) : List (List ℚ) :=
  List.zipWith (fun prev cur => List.zipWith (fun p q => (q - p) / p) prev cur)
    data data.tail

/-- `portfolio_returns`: `(self.returns * self.weights).sum(axis=1)`.
Row-wise elementwise product with the weight array followed by a row sum.
`pandas` raises `ValueError` when the array length differs from the column
count; that fallible behaviour is the `none` branch. -/
def portfolio_returns (returns : List (List ℚ)) (weights : List ℚ) :
    Option (List ℚ) :=
  if returns.all (fun row => row.length = weights.length) then
    some (returns.map (fun row => (List.zipWith (fun x w => x * w) row weights).sum))
  else none

lemma getD_zipWith {α : Type} (f : α → α → α) (d : α) (l1 l2 : List α)
    (i : ℕ) (h1 : i < l1.length) (h2 : i < l2.length) :
    (List.zipWith f l1 l2).getD i d = f (l1.getD i d) (l2.getD i d) := by
  induction l1 generalizing l2 i with
  | nil => simp at h1
  | cons x xs ih =>
    cases l2 with
    | nil => simp at h2
    | cons y ys =>
      cases i with
      | zero => rfl
      | succ j =>
        simp only [List.length_cons, Nat.succ_lt_succ_iff] at h1 h2
        simpa [List.getD_cons_succ] using ih ys j h1 h2

lemma getD_tail {α : Type} (l : List α) (d : α) (i : ℕ) :
    l.tail.getD i d = l.getD (i+1) d := by
  cases l <;> simp [List.getD_cons_succ]

lemma dotProduct_nil : dotProduct [] [] = 0 := rfl

lemma dotProduct_cons (a x : ℚ) (w row : List ℚ) :
    dotProduct (a :: w) (x :: row) = a * x + dotProduct w row := by
  simp [dotProduct, List.range_succ_eq_map, List.map_map, Function.comp_def]

lemma zipWith_mul_sum_eq_dotProduct (row w : List ℚ)
    (h : row.length = w.length) :
    (List.zipWith (fun x wa => x * wa) row w).sum = dotProduct w row := by
  induction row generalizing w with
  | nil =>
    cases w with
    | nil => simp [dotProduct]
    | cons a w => simp at h
  | cons x xs ih =>
    cases w with
    | nil => simp at h
    | cons a w =>
      simp only [List.length_cons, Nat.succ.injEq] at h
      simp [dotProduct_cons, ih w h, mul_comm]

/-- C1: with a `K`-column return table and a weight vector of length `K`,
the aggregator succeeds and every entry `t` of the portfolio return series
is the dot product of return-table row `t` with the weight vector (exact
in rational arithmetic, hence within any floating tolerance). -/
theorem c1_portfolio_weighted_sum (returns : List (List ℚ)) (w : List ℚ)
    (hlen : ∀ row ∈ returns, row.length = w.length) :
    (portfolio_returns returns w).isSome = true ∧
    ∀ ps, portfolio_returns returns w = some ps →
      ps.length = returns.length ∧
      ∀ t, t < returns.length → ps.getD t 0 = dotProduct w (returns.getD t []) := by
  have hall : returns.all (fun row => row.length = w.length) = true := by
    simp only [List.all_eq_true, decide_eq_true_eq]
    exact hlen
  refine ⟨by simp [portfolio_returns, hall], ?_⟩
  intro ps hps
  simp only [portfolio_returns, hall, if_true, Option.some.injEq] at hps
  subst hps
  refine ⟨by simp, ?_⟩
  intro t ht
  have ht' : t < (returns.map
      (fun row => (List.zipWith (fun x wa => x * wa) row w).sum)).length := by
    simpa using ht
  rw [List.getD_eq_getElem _ _ ht', List.getD_eq_getElem _ _ ht,
    List.getElem_map]
  exact zipWith_mul_sum_eq_dotProduct _ _ (hlen _ (List.getElem_mem ht))

/-- C1 witness: the spec's two-asset example, weights `[0.6, 0.4]`. -/
theorem c1_portfolio_weighted_sum_witness :
    (∀ row ∈ [[(2:ℚ)/100, 1/100], [-1/100, 0], [3/100, -2/100]],
        row.length = [(6:ℚ)/10, 4/10].length) ∧
    ((portfolio_returns [[(2:ℚ)/100, 1/100], [-1/100, 0], [3/100, -2/100]]
        [(6:ℚ)/10, 4/10]).isSome = true ∧
      ∀ ps, portfolio_returns [[(2:ℚ)/100, 1/100], [-1/100, 0], [3/100, -2/100]]
          [(6:ℚ)/10, 4/10] = some ps →
        ps.length = 3 ∧
        ∀ t, t < 3 → ps.getD t 0 =
          dotProduct [(6:ℚ)/10, 4/10]
            ([[(2:ℚ)/100, 1/100], [-1/100, 0], [3/100, -2/100]].getD t [])) := by
  have h : ∀ row ∈ [[(2:ℚ)/100, 1/100], [-1/100, 0], [3/100, -2/100]],
      row.length = [(6:ℚ)/10, 4/10].length := by
    intro row hrow
    simp only [List.mem_cons, List.not_mem_nil, or_false] at hrow
    rcases hrow with h | h | h <;> subst h <;> rfl
  exact ⟨h, c1_portfolio_weighted_sum _ _ h⟩

/-- C2: `pct_change().dropna()` produces `max (N-1) 0` rows: exactly
`N-1` rows for `N ≥ 2` price rows, each cell the simple percentage change
from the previous row, and an empty table (not an error) for `N < 2`. -/
theorem c2_returns_shape (data : List (List ℚ)) (K : ℕ)
    (hrect : ∀ row ∈ data, row.length = K) :
    (calculate_returns data).length = data.length - 1 ∧
    (∀ t a, t + 1 < data.length → a < K →
      ((calculate_returns data).getD t []).getD a 0 =
        ((data.getD (t+1) []).getD a 0 - (data.getD t []).getD a 0) /
          (data.getD t []).getD a 0) ∧
    (data.length < 2 → calculate_returns data = []) := by
  have hlen : (calculate_returns data).length = data.length - 1 := by
    simp only [calculate_returns, List.length_zipWith, List.length_tail]
    omega
  refine ⟨hlen, ?_, ?_⟩
  · intro t a ht ha
    have ht0 : t < data.length := by omega
    have httail : t < data.tail.length := by
      simp only [List.length_tail]; omega
    have hrowt : (data.getD t []).length = K := by
      rw [List.getD_eq_getElem _ _ ht0]
      exact hrect _ (List.getElem_mem ht0)
    have hrowt1 : (data.getD (t+1) []).length = K := by
      rw [List.getD_eq_getElem _ _ ht]
      exact hrect _ (List.getElem_mem ht)
    simp only [calculate_returns]
    rw [getD_zipWith _ _ _ _ t ht0 httail, getD_tail,
      getD_zipWith _ _ _ _ a (by omega) (by omega)]
  · intro hshort
    match data, hshort with
    | [], _ => rfl
    | [row], _ => rfl

/-- C2 witness: the spec's single-asset price example `[100, 110, 99]`. -/
theorem c2_returns_shape_witness :
    (∀ row ∈ [[(100:ℚ)], [110], [99]], row.length = 1) ∧
    ((calculate_returns [[(100:ℚ)], [110], [99]]).length = 2 ∧
      (∀ t a, t + 1 < 3 → a < 1 →
        ((calculate_returns [[(100:ℚ)], [110], [99]]).getD t []).getD a 0 =
          (([[(100:ℚ)], [110], [99]].getD (t+1) []).getD a 0 -
              ([[(100:ℚ)], [110], [99]].getD t []).getD a 0) /
            ([[(100:ℚ)], [110], [99]].getD t []).getD a 0) ∧
      (3 < 2 → calculate_returns [[(100:ℚ)], [110], [99]] = [])) := by
  have h : ∀ row ∈ [[(100:ℚ)], [110], [99]], row.length = 1 := by
    intro row hrow
    simp only [List.mem_cons, List.not_mem_nil, or_false] at hrow
    rcases hrow with h | h | h <;> subst h <;> rfl
  exact ⟨h, c2_returns_shape _ 1 h⟩

/-- C9: a weight vector whose length differs from the column count makes
the aggregator signal an error (`ValueError` in `pandas`, `none` here);
no output series is produced from truncated or padded inputs. -/
theorem c9_weight_mismatch_error (returns : List (List ℚ)) (w : List ℚ)
    (row : List ℚ) (hmem : row ∈ returns) (hne : row.length ≠ w.length) :
    portfolio_returns returns w = none := by
  have : returns.all (fun r => r.length = w.length) = false := by
    simp only [List.all_eq_false, decide_eq_false_iff_not]
    exact ⟨row, hmem, by simpa using hne⟩
  simp [portfolio_returns, this]

/-- C9 witness: a two-column return row against a one-entry weight vector. -/
theorem c9_weight_mismatch_error_witness :
    [(1:ℚ), 2] ∈ [[(1:ℚ), 2]] ∧ [(1:ℚ), 2].length ≠ [(1:ℚ)].length ∧
    portfolio_returns [[(1:ℚ), 2]] [(1:ℚ)] = none := by
  refine ⟨by simp, by decide, ?_⟩
  exact c9_weight_mismatch_error _ _ [(1:ℚ), 2] (by simp) (by decide)

/-- Mean of a series, `Series.mean()`: sum divided by length. -/
def mean (r : List ℚ) : ℚ := r.sum / (r.length : ℚ)

/-- Sample variance with `ddof = 1` (the `pandas` default behind
`Series.std()`): `Σ (x - mean)² / (n - 1)`. -/
def sampleVar (r : List ℚ) : ℚ :=
  (r.map (fun x => (x - mean r)^2)).sum / ((r.length : ℚ) - 1)

/-- `Series.std()`: sample standard deviation, NaN (`none`) for fewer than
two observations, `sq` standing for the real square root. -/
def seriesStd (sq : ℚ → ℚ) (r : List ℚ) : Option ℚ :=
  if 2 ≤ r.length then some (sq (sampleVar r)) else none

/-- `np.percentile(r, 5)` with the default linear interpolation: sort the
data, take the virtual index `h = (n-1)·5/100`, and interpolate linearly
between the neighbouring order statistics. -/
def percentile5 (r : List ℚ) : ℚ :=
  let s := List.insertionSort (· ≤ ·) r
  let h : ℚ := ((r.length : ℚ) - 1) * 5 / 100
  let i : ℕ := (⌊h⌋).toNat
  s.getD i 0 + (h - (i : ℚ)) * (s.getD (i+1) 0 - s.getD i 0)

/-- Running product accumulator behind `(1 + portfolio_rets).cumprod()`. -/
def cumprodAux (acc : ℚ) : List ℚ → List ℚ
  | [] => []
  | x :: xs => (acc * (1 + x)) :: cumprodAux (acc * (1 + x)) xs

/-- `(1 + portfolio_rets).cumprod()`: the cumulative return curve. -/
def cumulative_returns (r : List ℚ) : List ℚ := cumprodAux 1 r

/-- Accumulator behind `cumulative.expanding().max()`: running maximum
seeded with the maximum `m` of the prefix already consumed. -/
def runmaxAux (m : ℚ) : List ℚ → List ℚ
  | [] => []
  | x :: xs => (max m x) :: runmaxAux (max m x) xs

/-- `cumulative.expanding().max()`: element `t` is the maximum of the
curve up to and including `t`. -/
def running_max : List ℚ → List ℚ
  | [] => []
  | x :: xs => x :: runmaxAux x xs

/-- `(cumulative - running_max) / running_max`, elementwise. -/
def drawdown_curve (c : List ℚ) : List ℚ :=
  List.zipWith (fun ci mi => (ci - mi) / mi) c (running_max c)

/-- `Series.min()`: `none` is the NaN a `pandas` reduction yields on an
empty series. -/
def series_min : List ℚ → Option ℚ
  | [] => none
  | x :: xs =>
    match series_min xs with
    | none => some x
    | some m => some (min x m)

/-- The dictionary returned by `calculate_metrics`: seven scalar metrics
plus three series.  The annualized volatility is `Option ℚ` because it is
NaN whenever the sample standard deviation is (fewer than 2 returns). -/
structure MetricsBundle where
  total_return : ℚ
  annualized_return : ℚ
  annualized_vol : Option ℚ
  sharpe : ℚ
  var_95 : ℚ
  cvar_95 : ℚ
  max_drawdown : ℚ
  portfolio_rets : List ℚ
  cumulative : List ℚ
  drawdown : List ℚ
  deriving Repr, DecidableEq

/-- `calculate_metrics`: the empty-series check returns the empty dict
(`none`); otherwise every metric of the bundle is computed.  The Sharpe
guard is the code's `annualized_return / annualized_vol if annualized_vol
> 0 else 0`, where a NaN volatility fails the `> 0` test. -/
def calculate_metrics (sq : ℚ → ℚ) (r : List ℚ) : Option MetricsBundle :=
  if r.length = 0 then none
  else
    let total_return := (r.map (fun x => 1 + x)).prod - 1
    let annualized_return := mean r * 252
    let annualized_vol := (seriesStd sq r).map (fun s => s * sq 252)
    let sharpe :=
      match annualized_vol with
      | some v => if 0 < v then annualized_return / v else 0
      | none => 0
    let var_95 := percentile5 r
    let tail_losses := r.filter (fun x => x ≤ var_95)
    let cvar_95 := if tail_losses.length = 0 then var_95 else mean tail_losses
    let cumulative := cumulative_returns r
    let drawdown := drawdown_curve cumulative
    let max_drawdown := (series_min drawdown).getD 0
    some ⟨total_return, annualized_return, annualized_vol, sharpe, var_95,
      cvar_95, max_drawdown, r, cumulative, drawdown⟩

/-- Closed form of `calculate_metrics` on a non-empty series: the bundle
with every field spelled out. -/
lemma calculate_metrics_eq_some (sq : ℚ → ℚ) (r : List ℚ) (hne : r ≠ []) :
    calculate_metrics sq r = some
      { total_return := (r.map (fun x => 1 + x)).prod - 1
        annualized_return := mean r * 252
        annualized_vol := (seriesStd sq r).map (fun s => s * sq 252)
        sharpe :=
          match (seriesStd sq r).map (fun s => s * sq 252) with
          | some v => if 0 < v then mean r * 252 / v else 0
          | none => 0
        var_95 := percentile5 r
        cvar_95 :=
          if (r.filter (fun x => x ≤ percentile5 r)).length = 0
          then percentile5 r
          else mean (r.filter (fun x => x ≤ percentile5 r))
        max_drawdown :=
          (series_min (drawdown_curve (cumulative_returns r))).getD 0
        portfolio_rets := r
        cumulative := cumulative_returns r
        drawdown := drawdown_curve (cumulative_returns r) } := by
  have h : ¬ r.length = 0 := by simpa using hne
  simp [calculate_metrics, h]

/-- C8: an empty portfolio return series makes the metrics engine return
the single empty signal (`{}` in the code, `none` here): no partial
bundle, no computed zeros. -/
theorem c8_empty_series_no_metrics (sq : ℚ → ℚ) :
    calculate_metrics sq [] = none := rfl

/-- C10: on a one-observation series the engine still returns a full
bundle; the sample standard deviation is NaN, so the annualized
volatility is NaN (`none`, not a positive number) and the `> 0` Sharpe
guard maps the case to Sharpe = 0 rather than NaN. -/
theorem c10_single_observation (sq : ℚ → ℚ) (r : List ℚ)
    (h : r.length = 1) :
    (calculate_metrics sq r).isSome = true ∧
    (calculate_metrics sq r).map (fun b => b.annualized_vol) = some none ∧
    (calculate_metrics sq r).map (fun b => b.sharpe) = some 0 := by
  obtain ⟨x, rfl⟩ : ∃ x, r = [x] := by
    match r, h with
    | [x], _ => exact ⟨x, rfl⟩
  have hstd : seriesStd sq [x] = none := by simp [seriesStd]
  rw [calculate_metrics_eq_some sq [x] (by simp)]
  simp [hstd]

/-- C10 witness: the series `[1/2]`. -/
theorem c10_single_observation_witness :
    ([(1:ℚ)/2].length = 1) ∧
    ((calculate_metrics (fun x => x) [(1:ℚ)/2]).isSome = true ∧
      (calculate_metrics (fun x => x) [(1:ℚ)/2]).map
        (fun b => b.annualized_vol) = some none ∧
      (calculate_metrics (fun x => x) [(1:ℚ)/2]).map
        (fun b => b.sharpe) = some 0) :=
  ⟨rfl, c10_single_observation (fun x => x) [(1:ℚ)/2] rfl⟩

/-- Mean of a constant series is that constant. -/
lemma mean_const (r : List ℚ) (c : ℚ) (hne : r ≠ []) (hc : ∀ x ∈ r, x = c) :
    mean r = c := by
  have hlen : (r.length : ℚ) ≠ 0 := by
    simpa using fun h => hne (List.length_eq_zero.mp h)
  rw [mean, List.sum_eq_card_nsmul r c hc]
  rw [nsmul_eq_mul]
  field_simp

/-- Sample variance of a constant series is 0. -/
lemma sampleVar_const (r : List ℚ) (c : ℚ) (hne : r ≠ [])
    (hc : ∀ x ∈ r, x = c) : sampleVar r = 0 := by
  rw [sampleVar, List.sum_eq_zero, zero_div]
  intro y hy
  obtain ⟨x, hx, rfl⟩ := List.mem_map.mp hy
  rw [hc x hx, mean_const r c hne hc]
  ring

/-- C3: the Sharpe ratio is annualized return over annualized volatility
whenever the volatility is positive, and is exactly 0 — not NaN, not
infinite — when the volatility is 0, in particular on every constant
series of at least two returns. -/
theorem c3_sharpe_zero_vol_guard (sq : ℚ → ℚ) (hsq0 : sq 0 = 0)
    (r : List ℚ) (hne : r ≠ []) :
    (∀ b, calculate_metrics sq r = some b →
      (∀ v, b.annualized_vol = some v → 0 < v →
        b.sharpe = b.annualized_return / v) ∧
      (b.annualized_vol = some 0 → b.sharpe = 0)) ∧
    (∀ c, (∀ x ∈ r, x = c) → 2 ≤ r.length →
      ∀ b, calculate_metrics sq r = some b →
        b.annualized_vol = some 0 ∧ b.sharpe = 0) := by
  constructor
  · intro b hb
    rw [calculate_metrics_eq_some sq r hne] at hb
    have hb' := (Option.some.inj hb).symm
    subst hb'
    constructor
    · intro v hv hvpos
      simp only at hv
      simp only [hv, hvpos, if_true]
    · intro hv
      simp only at hv
      simp only [hv, lt_self_iff_false, if_false]
  · intro c hc h2 b hb
    rw [calculate_metrics_eq_some sq r hne] at hb
    have hb' := (Option.some.inj hb).symm
    subst hb'
    have hstd : seriesStd sq r = some (sq (sampleVar r)) := by
      simp [seriesStd, h2]
    have hvar : sampleVar r = 0 := sampleVar_const r c hne hc
    have hvol : (seriesStd sq r).map (fun s => s * sq 252) = some 0 := by
      rw [hstd, hvar, hsq0]
      simp
    refine ⟨by simpa using hvol, ?_⟩
    simp only [hvol, lt_self_iff_false, if_false]

/-- C3 witness: the constant series `[1/2, 1/2]` with `sq` the identity
(which satisfies `sq 0 = 0`). -/
theorem c3_sharpe_zero_vol_guard_witness :
    ((fun x : ℚ => x) 0 = 0) ∧ ([(1:ℚ)/2, 1/2] ≠ []) ∧
    ((∀ b, calculate_metrics (fun x => x) [(1:ℚ)/2, 1/2] = some b →
      (∀ v, b.annualized_vol = some v → 0 < v →
        b.sharpe = b.annualized_return / v) ∧
      (b.annualized_vol = some 0 → b.sharpe = 0)) ∧
    (∀ c, (∀ x ∈ [(1:ℚ)/2, 1/2], x = c) → 2 ≤ [(1:ℚ)/2, 1/2].length →
      ∀ b, calculate_metrics (fun x => x) [(1:ℚ)/2, 1/2] = some b →
        b.annualized_vol = some 0 ∧ b.sharpe = 0)) :=
  ⟨rfl, by simp,
    c3_sharpe_zero_vol_guard (fun x => x) rfl [(1:ℚ)/2, 1/2] (by simp)⟩

lemma series_min_eq_none_iff (l : List ℚ) : series_min l = none ↔ l = [] := by
  cases l with
  | nil => simp [series_min]
  | cons x xs =>
    simp only [series_min]
    cases series_min xs <;> simp

lemma series_min_mem (l : List ℚ) (m : ℚ) (h : series_min l = some m) :
    m ∈ l := by
  induction l generalizing m with
  | nil => simp [series_min] at h
  | cons x xs ih =>
    rcases hx : series_min xs with _ | m'
    · simp only [series_min, hx, Option.some.injEq] at h
      simp [← h]
    · simp only [series_min, hx, Option.some.injEq] at h
      subst h
      rcases min_choice x m' with hmin | hmin <;> rw [hmin]
      · exact List.mem_cons_self x xs
      · exact List.mem_cons_of_mem _ (ih m' hx)

lemma series_min_le (l : List ℚ) (m : ℚ) (h : series_min l = some m) :
    ∀ x ∈ l, m ≤ x := by
  induction l generalizing m with
  | nil => simp
  | cons x xs ih =>
    rcases hx : series_min xs with _ | m'
    · have hxs : xs = [] := (series_min_eq_none_iff xs).mp hx
      subst hxs
      simp only [series_min, Option.some.injEq] at h
      simp [← h]
    · simp only [series_min, hx, Option.some.injEq] at h
      subst h
      intro y hy
      rcases List.mem_cons.mp hy with rfl | hy'
      · exact min_le_left _ _
      · exact le_trans (min_le_right _ _) (ih m' hx _ hy')

lemma series_min_isSome (l : List ℚ) (h : l ≠ []) :
    (series_min l).isSome = true := by
  rcases hx : series_min l with _ | m
  · exact absurd ((series_min_eq_none_iff l).mp hx) h
  · rfl

/-- Every entry of the drawdown of a suffix is nonpositive as long as the
running maximum carried in is positive. -/
lemma zipWith_runmaxAux_nonpos (c : List ℚ) (m : ℚ) (hm : 0 < m) :
    ∀ d ∈ List.zipWith (fun ci mi => (ci - mi) / mi) c (runmaxAux m c),
      d ≤ 0 := by
  induction c generalizing m with
  | nil => simp
  | cons x xs ih =>
    intro d hd
    simp only [runmaxAux, List.zipWith_cons_cons, List.mem_cons] at hd
    rcases hd with rfl | hd
    · exact div_nonpos_iff.mpr (Or.inr ⟨sub_nonpos.2 (le_max_right m x),
        le_of_lt (lt_of_lt_of_le hm (le_max_left m x))⟩)
    · exact ih (max m x) (lt_of_lt_of_le hm (le_max_left m x)) d hd

/-- If every drawdown entry of a suffix is nonnegative (hence zero) and
the carried-in running maximum is positive, then the suffix is chained
nondecreasing and bounded below by that maximum. -/
lemma zipWith_runmaxAux_nonneg_chain (c : List ℚ) (m : ℚ) (hm : 0 < m)
    (h : ∀ d ∈ List.zipWith (fun ci mi => (ci - mi) / mi) c (runmaxAux m c),
      0 ≤ d) :
    List.Chain' (· ≤ ·) c ∧ ∀ x ∈ c, m ≤ x := by
  induction c generalizing m with
  | nil => simp
  | cons x xs ih =>
    simp only [runmaxAux, List.zipWith_cons_cons, List.mem_cons] at h
    have hmax : 0 < max m x := lt_of_lt_of_le hm (le_max_left m x)
    have hhead : 0 ≤ (x - max m x) / max m x := h _ (Or.inl rfl)
    have hge : max m x ≤ x := by
      have := (le_div_iff₀ hmax).mp hhead
      linarith
    have hxeq : max m x = x := le_antisymm hge (le_max_right m x)
    have hxpos : 0 < x := hxeq ▸ hmax
    have htail := ih x hxpos (by
      intro d hd
      refine h d (Or.inr ?_)
      rw [hxeq]
      exact hd)
    refine ⟨List.chain'_cons'.mpr ⟨?_, htail.1⟩, ?_⟩
    · intro y hy
      exact htail.2 y (List.mem_of_mem_head? hy)
    · intro y hy
      rcases List.mem_cons.mp hy with rfl | hy'
      · exact le_trans (le_max_left m y) (le_of_eq hxeq)
      · exact le_trans (le_trans (le_max_left m x) (le_of_eq hxeq))
          (htail.2 y hy')

/-- C4: under the data-model invariant that every portfolio return
exceeds -1 (simple returns of positive prices under nonnegative weights),
every drawdown value is ≤ 0, the maximum drawdown is ≤ 0, and a maximum
drawdown of exactly 0 forces the cumulative curve to be monotonically
non-decreasing. -/
theorem c4_drawdown_nonpositive (sq : ℚ → ℚ) (r : List ℚ) (hne : r ≠ [])
    (hr : ∀ x ∈ r, -1 < x) :
    ∀ b, calculate_metrics sq r = some b →
      (∀ d ∈ b.drawdown, d ≤ 0) ∧ b.max_drawdown ≤ 0 ∧
      (b.max_drawdown = 0 → List.Chain' (· ≤ ·) b.cumulative) := by
  obtain ⟨y, ys, rfl⟩ := List.exists_cons_of_ne_nil hne
  intro b hb
  rw [calculate_metrics_eq_some sq _ hne] at hb
  have hb' := (Option.some.inj hb).symm
  subst hb'
  have hy : 0 < 1 * (1 + y) := by
    have := hr y (List.mem_cons_self y ys)
    linarith [one_mul (1 + y)]
  have hcum : cumulative_returns (y :: ys) =
      (1 * (1 + y)) :: cumprodAux (1 * (1 + y)) ys := rfl
  have hdd : drawdown_curve (cumulative_returns (y :: ys)) =
      ((1 * (1 + y) - 1 * (1 + y)) / (1 * (1 + y))) ::
        List.zipWith (fun ci mi => (ci - mi) / mi) (cumprodAux (1 * (1 + y)) ys)
          (runmaxAux (1 * (1 + y)) (cumprodAux (1 * (1 + y)) ys)) := by
    rw [hcum]; rfl
  have hnonpos : ∀ d ∈ drawdown_curve (cumulative_returns (y :: ys)),
      d ≤ 0 := by
    rw [hdd]
    intro d hd
    rcases List.mem_cons.mp hd with rfl | hd'
    · simp
    · exact zipWith_runmaxAux_nonpos _ _ hy d hd'
  have hddne : drawdown_curve (cumulative_returns (y :: ys)) ≠ [] := by
    rw [hdd]; exact List.cons_ne_nil _ _
  obtain ⟨mval, hm⟩ := Option.isSome_iff_exists.mp
    (series_min_isSome _ hddne)
  refine ⟨hnonpos, ?_, ?_⟩
  · simp only [hm, Option.getD_some]
    exact hnonpos mval (series_min_mem _ _ hm)
  · intro hzero
    simp only [hm, Option.getD_some] at hzero
    subst hzero
    have hall : ∀ d ∈ drawdown_curve (cumulative_returns (y :: ys)),
        0 ≤ d := series_min_le _ _ hm
    rw [hdd] at hall
    have htail := zipWith_runmaxAux_nonneg_chain _ _ hy (by
      intro d hd
      exact hall d (List.mem_cons_of_mem _ hd))
    rw [hcum]
    exact List.chain'_cons'.mpr
      ⟨fun z hz => htail.2 z (List.mem_of_mem_head? hz), htail.1⟩

/-- C4 witness: returns `[1/10, -1/10]` (the spec's price example
`[100, 110, 99]`), whose drawdown curve is `[0, -1/10]`. -/
theorem c4_drawdown_nonpositive_witness :
    ([(1:ℚ)/10, -1/10] ≠ []) ∧ (∀ x ∈ [(1:ℚ)/10, -1/10], -1 < x) ∧
    (∀ b, calculate_metrics (fun x => x) [(1:ℚ)/10, -1/10] = some b →
      (∀ d ∈ b.drawdown, d ≤ 0) ∧ b.max_drawdown ≤ 0 ∧
      (b.max_drawdown = 0 → List.Chain' (· ≤ ·) b.cumulative)) := by
  have h1 : ([(1:ℚ)/10, -1/10] ≠ []) := by simp
  have h2 : ∀ x ∈ [(1:ℚ)/10, -1/10], -1 < x := by
    intro x hx
    rcases List.mem_cons.mp hx with rfl | hx'
    · norm_num
    · rcases List.mem_cons.mp hx' with rfl | hx''
      · norm_num
      · simp at hx''
  exact ⟨h1, h2, c4_drawdown_nonpositive (fun x => x) _ h1 h2⟩

/-- Column mean of a return table, column `a`. -/
def colMean (returns : List (List ℚ)) (a : ℕ) : ℚ :=
  mean (returns.map (fun row => row.getD a 0))

/-- `self.returns.cov()`: sample covariance (`ddof = 1`) of columns `a`
and `b`.  The model covers the numeric path `N ≥ 2`; `pandas` yields NaN
entries below that, where neither attribution claim's variance-sign
hypothesis can hold. -/
def sampleCov (returns : List (List ℚ)) (a b : ℕ) : ℚ :=
  (returns.map (fun row =>
    (row.getD a 0 - colMean returns a) * (row.getD b 0 - colMean returns b))).sum /
    ((returns.length : ℚ) - 1)

/-- `cov_matrix = self.returns.cov() * 252`. -/
def cov_matrix (returns : List (List ℚ)) (a b : ℕ) : ℚ :=
  sampleCov returns a b * 252

/-- `marginal_contrib = np.dot(cov_matrix, self.weights)`, entry `a`. -/
def marginal_contrib (w : List ℚ) (returns : List (List ℚ)) (a : ℕ) : ℚ :=
  ((List.range w.length).map (fun b => cov_matrix returns a b * w.getD b 0)).sum

/-- `portfolio_variance = np.dot(self.weights.T, np.dot(cov_matrix,
self.weights))`. -/
def portfolio_variance (w : List ℚ) (returns : List (List ℚ)) : ℚ :=
  ((List.range w.length).map
    (fun a => w.getD a 0 * marginal_contrib w returns a)).sum

/-- One row of the attribution `DataFrame`. -/
structure AttrRow (α : Type) where
  asset : α
  weight : ℚ
  risk_contrib : ℚ
  risk_contrib_pct : ℚ
  deriving Repr, DecidableEq

/-- `risk_attribution`: guard `portfolio_variance <= 0` returns `None`;
otherwise the `DataFrame` is built column-wise in ticker order, with the
percentage column normalized by the realized sum of the risk
contributions. -/
def risk_attribution {α : Type} [Inhabited α] (tickers : List α)
    (w : List ℚ) (returns : List (List ℚ)) : Option (List (AttrRow α)) :=
  let pv := portfolio_variance w returns
  if pv ≤ 0 then none
  else
    let rc := (List.range w.length).map
      (fun a => w.getD a 0 * marginal_contrib w returns a / pv)
    let total := rc.sum
    some ((List.range w.length).map (fun a =>
      ⟨tickers.getD a default, w.getD a 0, rc.getD a 0,
        rc.getD a 0 / total * 100⟩))

/-- `main`: the metrics bundle and the attribution table are computed by
two independent calls on the same inputs. -/
def analyze_portfolio {α : Type} [Inhabited α] (sq : ℚ → ℚ)
    (tickers : List α) (w : List ℚ) (returns : List (List ℚ)) :
    Option MetricsBundle × Option (List (AttrRow α)) :=
  ((portfolio_returns returns w).bind (fun r => calculate_metrics sq r),
    risk_attribution tickers w returns)

lemma map_getD_range {α : Type} (l : List α) (d : α) :
    (List.range l.length).map (fun a => l.getD a d) = l := by
  induction l with
  | nil => simp
  | cons x xs ih =>
    rw [List.length_cons, List.range_succ_eq_map, List.map_cons,
      List.map_map]
    simp only [List.getD_cons_zero, Function.comp_def, Nat.succ_eq_add_one,
      List.getD_cons_succ]
    rw [ih]

lemma map_getD_range' {α : Type} (l : List α) (d : α) (K : ℕ)
    (h : l.length = K) :
    (List.range K).map (fun a => l.getD a d) = l := by
  subst h
  exact map_getD_range l d

lemma sum_map_div {ι : Type} (l : List ι) (g : ι → ℚ) (c : ℚ) :
    (l.map (fun a => g a / c)).sum = (l.map g).sum / c := by
  induction l with
  | nil => simp
  | cons x xs ih =>
    rw [List.map_cons, List.sum_cons, List.map_cons, List.sum_cons, ih,
      div_add_div_same]

lemma sum_map_div_mul {ι : Type} (l : List ι) (g : ι → ℚ) (c e : ℚ) :
    (l.map (fun a => g a / c * e)).sum = (l.map g).sum / c * e := by
  induction l with
  | nil => simp
  | cons x xs ih =>
    rw [List.map_cons, List.sum_cons, List.map_cons, List.sum_cons, ih]
    ring

/-- C5: when the portfolio variance is ≤ 0 the attribution engine signals
"no attribution available" (`None`), and the metrics bundle computed from
the very same inputs is untouched by that failure: the analysis still
carries it. -/
theorem c5_degenerate_variance_guard {α : Type} [Inhabited α] (sq : ℚ → ℚ)
    (tickers : List α) (w : List ℚ) (returns : List (List ℚ))
    (h2 : 2 ≤ returns.length)
    (hv : portfolio_variance w returns ≤ 0) :
    risk_attribution tickers w returns = none ∧
    (analyze_portfolio sq tickers w returns).2 = none ∧
    ∀ r b, portfolio_returns returns w = some r →
      calculate_metrics sq r = some b →
      (analyze_portfolio sq tickers w returns).1 = some b := by
  have hnone : risk_attribution tickers w returns = none := by
    simp only [risk_attribution, if_pos hv]
  refine ⟨hnone, hnone, ?_⟩
  intro r b hr hb
  simp [analyze_portfolio, hr, hb]

/-- C5 witness: one asset with constant returns `[0, 0]`, weight `[1]`:
the portfolio variance is 0, attribution is withheld, and the metrics
bundle is still delivered. -/
theorem c5_degenerate_variance_guard_witness :
    (2 ≤ [[(0:ℚ)], [0]].length) ∧
    (portfolio_variance [(1:ℚ)] [[(0:ℚ)], [0]] ≤ 0) ∧
    (risk_attribution [(0:ℕ)] [(1:ℚ)] [[(0:ℚ)], [0]] = none ∧
      (analyze_portfolio (fun x => x) [(0:ℕ)] [(1:ℚ)] [[(0:ℚ)], [0]]).2 = none ∧
      ∀ r b, portfolio_returns [[(0:ℚ)], [0]] [(1:ℚ)] = some r →
        calculate_metrics (fun x => x) r = some b →
        (analyze_portfolio (fun x => x) [(0:ℕ)] [(1:ℚ)] [[(0:ℚ)], [0]]).1 =
          some b) := by
  have h2 : 2 ≤ [[(0:ℚ)], [0]].length := by norm_num
  have hv : portfolio_variance [(1:ℚ)] [[(0:ℚ)], [0]] ≤ 0 := by
    norm_num [portfolio_variance, marginal_contrib, cov_matrix, sampleCov,
      colMean, mean]
  exact ⟨h2, hv, c5_degenerate_variance_guard (fun x => x) _ _ _ h2 hv⟩

/-- C6: when the variance is positive, attribution succeeds, the
percentage column sums to exactly 100 in exact arithmetic (hence within
1e-6 of 100 in floating point) because it is normalized by the realized
sum of the risk contributions, and the rows keep ticker input order. -/
theorem c6_attribution_pct_sums_to_100 {α : Type} [Inhabited α]
    (tickers : List α) (w : List ℚ) (returns : List (List ℚ))
    (h2 : 2 ≤ returns.length) (hlen : tickers.length = w.length)
    (hv : 0 < portfolio_variance w returns) :
    (risk_attribution tickers w returns).isSome = true ∧
    ∀ rows, risk_attribution tickers w returns = some rows →
      (rows.map (fun row => row.risk_contrib_pct)).sum = 100 ∧
      rows.map (fun row => row.asset) = tickers := by
  have hcond : ¬ portfolio_variance w returns ≤ 0 := not_le.mpr hv
  have hpv : portfolio_variance w returns ≠ 0 := ne_of_gt hv
  constructor
  · simp only [risk_attribution, if_neg hcond, Option.isSome_some]
  intro rows hrows
  simp only [risk_attribution, if_neg hcond, Option.some.injEq] at hrows
  subst hrows
  set pv := portfolio_variance w returns with hpvdef
  set rc := (List.range w.length).map
    (fun a => w.getD a 0 * marginal_contrib w returns a / pv) with hrc
  have hrclen : rc.length = w.length := by
    rw [hrc, List.length_map, List.length_range]
  have htotal : rc.sum = 1 := by
    rw [hrc, sum_map_div]
    have hsum : ((List.range w.length).map
        (fun a => w.getD a 0 * marginal_contrib w returns a)).sum = pv := rfl
    rw [hsum, div_self hpv]
  constructor
  · rw [List.map_map]
    have hcomp : ((fun row : AttrRow α => row.risk_contrib_pct) ∘
        (fun a => (⟨tickers.getD a default, w.getD a 0, rc.getD a 0,
          rc.getD a 0 / rc.sum * 100⟩ : AttrRow α))) =
        (fun a => rc.getD a 0 / rc.sum * 100) := rfl
    rw [hcomp, sum_map_div_mul (List.range w.length) (fun a => rc.getD a 0)
      rc.sum 100, map_getD_range' rc 0 w.length hrclen, htotal]
    norm_num
  · rw [List.map_map]
    have hcomp : ((fun row : AttrRow α => row.asset) ∘
        (fun a => (⟨tickers.getD a default, w.getD a 0, rc.getD a 0,
          rc.getD a 0 / rc.sum * 100⟩ : AttrRow α))) =
        (fun a => tickers.getD a default) := rfl
    rw [hcomp]
    exact map_getD_range' tickers default w.length hlen

/-- C6 witness: one asset, weight `[1]`, returns `[1/10, -1/10]`: the
variance is positive, the single percentage is 100, and the row order is
the ticker order. -/
theorem c6_attribution_pct_sums_to_100_witness :
    (2 ≤ [[(1:ℚ)/10], [-1/10]].length) ∧
    ([(0:ℕ)].length = [(1:ℚ)].length) ∧
    (0 < portfolio_variance [(1:ℚ)] [[(1:ℚ)/10], [-1/10]]) ∧
    ((risk_attribution [(0:ℕ)] [(1:ℚ)] [[(1:ℚ)/10], [-1/10]]).isSome = true ∧
      ∀ rows, risk_attribution [(0:ℕ)] [(1:ℚ)] [[(1:ℚ)/10], [-1/10]] =
          some rows →
        (rows.map (fun row => row.risk_contrib_pct)).sum = 100 ∧
        rows.map (fun row => row.asset) = [(0:ℕ)]) := by
  have h2 : 2 ≤ [[(1:ℚ)/10], [-1/10]].length := by norm_num
  have hlen : [(0:ℕ)].length = [(1:ℚ)].length := rfl
  have hv : 0 < portfolio_variance [(1:ℚ)] [[(1:ℚ)/10], [-1/10]] := by
    norm_num [portfolio_variance, marginal_contrib, cov_matrix, sampleCov,
      colMean, mean, List.range_succ, List.range_zero]
  exact ⟨h2, hlen, hv,
    c6_attribution_pct_sums_to_100 _ _ _ h2 hlen hv⟩

lemma sorted_getD_mono (s : List ℚ) (hs : List.Sorted (· ≤ ·) s)
    (j k : ℕ) (hjk : j ≤ k) (hk : k < s.length) :
    s.getD j 0 ≤ s.getD k 0 := by
  rcases Nat.eq_or_lt_of_le hjk with rfl | hlt
  · exact le_refl _
  · have hj : j < s.length := lt_trans hlt hk
    have := hs.rel_get_of_lt (a := ⟨j, hj⟩) (b := ⟨k, hk⟩) hlt
    rw [List.get_eq_getElem, List.get_eq_getElem] at this
    rw [List.getD_eq_getElem _ _ hj, List.getD_eq_getElem _ _ hk]
    exact this

/-- On a non-empty series the linearly interpolated 5th percentile is at
least the minimum of the series, so at least one observation lies at or
below it. -/
lemma exists_le_percentile5 (r : List ℚ) (hne : r ≠ []) :
    ∃ x ∈ r, x ≤ percentile5 r := by
  have hperm : (List.insertionSort (· ≤ ·) r).Perm r :=
    List.perm_insertionSort _ r
  have hsorted : List.Sorted (· ≤ ·) (List.insertionSort (· ≤ ·) r) :=
    List.sorted_insertionSort (· ≤ ·) r
  set s := List.insertionSort (· ≤ ·) r with hs
  have hslen : s.length = r.length := hperm.length_eq
  have hn : 1 ≤ r.length := by
    rcases Nat.eq_zero_or_pos r.length with h0 | h1
    · exact absurd (List.length_eq_zero.mp h0) hne
    · exact h1
  set hq : ℚ := ((r.length : ℚ) - 1) * 5 / 100 with hhq
  have hq0 : 0 ≤ hq := by
    rw [hhq]
    have : (1:ℚ) ≤ (r.length : ℚ) := by exact_mod_cast hn
    have h1 : (0:ℚ) ≤ (r.length : ℚ) - 1 := by linarith
    positivity
  have hfl : 0 ≤ ⌊hq⌋ := Int.floor_nonneg.mpr hq0
  set i : ℕ := (⌊hq⌋).toNat with hi
  have hic : (i : ℚ) = (⌊hq⌋ : ℚ) := by
    rw [hi]
    exact_mod_cast congrArg (fun z : ℤ => (z : ℚ)) (Int.toNat_of_nonneg hfl)
  have hi_le : (i : ℚ) ≤ hq := by
    rw [hic]; exact Int.floor_le hq
  have hq_lt : hq < (i : ℚ) + 1 := by
    rw [hic]
    exact_mod_cast Int.lt_floor_add_one hq
  have hq_le : hq ≤ (r.length : ℚ) - 1 := by
    have h1 : (0:ℚ) ≤ (r.length : ℚ) - 1 := by
      have : (1:ℚ) ≤ (r.length : ℚ) := by exact_mod_cast hn
      linarith
    rw [hhq]
    linarith
  have hi_lt : i < r.length := by
    have : (i : ℚ) < (r.length : ℚ) := by linarith
    exact_mod_cast this
  have hp : percentile5 r =
      s.getD i 0 + (hq - (i : ℚ)) * (s.getD (i+1) 0 - s.getD i 0) := rfl
  have hmin_mem : s.getD 0 0 ∈ r := by
    have h0 : 0 < s.length := by rw [hslen]; exact hn
    rw [List.getD_eq_getElem _ _ h0]
    exact hperm.subset (List.getElem_mem h0)
  refine ⟨s.getD 0 0, hmin_mem, ?_⟩
  rw [hp]
  have hmono_i : s.getD 0 0 ≤ s.getD i 0 :=
    sorted_getD_mono s hsorted 0 i (Nat.zero_le i) (by rw [hslen]; exact hi_lt)
  by_cases hcase : i + 1 < r.length
  · have hmono_i1 : s.getD 0 0 ≤ s.getD (i+1) 0 :=
      sorted_getD_mono s hsorted 0 (i+1) (Nat.zero_le _)
        (by rw [hslen]; exact hcase)
    have e1 : 0 ≤ (1 - (hq - (i:ℚ))) * (s.getD i 0 - s.getD 0 0) :=
      mul_nonneg (by linarith) (by linarith)
    have e2 : 0 ≤ (hq - (i:ℚ)) * (s.getD (i+1) 0 - s.getD 0 0) :=
      mul_nonneg (by linarith) (by linarith)
    nlinarith [e1, e2]
  · have hieq : i + 1 = r.length := by omega
    have hiq : (i : ℚ) = (r.length : ℚ) - 1 := by
      have : ((i : ℚ) + 1) = (r.length : ℚ) := by exact_mod_cast hieq
      linarith
    have hfrac0 : hq - (i : ℚ) = 0 := by
      rw [hiq]
      linarith
    rw [hfrac0, zero_mul, add_zero]
    exact hmono_i

/-- C7: VaR(95) of the bundle is the linearly interpolated 5th percentile
of the raw return series; CVaR(95) is the mean of the observations at or
below VaR with the VaR fallback on an empty tail, and on a non-empty
series that tail is provably non-empty, so CVaR is genuinely the tail
mean. -/
theorem c7_var_cvar (sq : ℚ → ℚ) (r : List ℚ) (hne : r ≠ []) :
    ∀ b, calculate_metrics sq r = some b →
      b.var_95 = percentile5 r ∧
      b.cvar_95 = (if (r.filter (fun x => x ≤ percentile5 r)).length = 0
        then percentile5 r
        else mean (r.filter (fun x => x ≤ percentile5 r))) ∧
      r.filter (fun x => x ≤ percentile5 r) ≠ [] ∧
      b.cvar_95 = mean (r.filter (fun x => x ≤ percentile5 r)) := by
  intro b hb
  rw [calculate_metrics_eq_some sq r hne] at hb
  have hb' := (Option.some.inj hb).symm
  subst hb'
  obtain ⟨x, hx, hxle⟩ := exists_le_percentile5 r hne
  have hmem : x ∈ r.filter (fun x => x ≤ percentile5 r) :=
    List.mem_filter.mpr ⟨hx, by simpa using hxle⟩
  have hfne : r.filter (fun x => x ≤ percentile5 r) ≠ [] :=
    List.ne_nil_of_mem hmem
  have hlen0 : ¬ (r.filter (fun x => x ≤ percentile5 r)).length = 0 := by
    simpa [List.length_eq_zero] using hfne
  exact ⟨rfl, by simp [hlen0], hfne, by simp [hlen0]⟩

/-- C7 witness: the series `[1/10, -1/10]`. -/
theorem c7_var_cvar_witness :
    ([(1:ℚ)/10, -1/10] ≠ []) ∧
    (∀ b, calculate_metrics (fun x => x) [(1:ℚ)/10, -1/10] = some b →
      b.var_95 = percentile5 [(1:ℚ)/10, -1/10] ∧
      b.cvar_95 = (if ([(1:ℚ)/10, -1/10].filter
          (fun x => x ≤ percentile5 [(1:ℚ)/10, -1/10])).length = 0
        then percentile5 [(1:ℚ)/10, -1/10]
        else mean ([(1:ℚ)/10, -1/10].filter
          (fun x => x ≤ percentile5 [(1:ℚ)/10, -1/10]))) ∧
      [(1:ℚ)/10, -1/10].filter
        (fun x => x ≤ percentile5 [(1:ℚ)/10, -1/10]) ≠ [] ∧
      b.cvar_95 = mean ([(1:ℚ)/10, -1/10].filter
        (fun x => x ≤ percentile5 [(1:ℚ)/10, -1/10]))) :=
  ⟨by simp, c7_var_cvar (fun x => x) [(1:ℚ)/10, -1/10] (by simp)⟩

end PortfolioAnalytics
